import Mathlib

/-
Verification development for the sync_roles privilege-table extraction
pipeline (sync_roles.py).  The pure core of the program is embedded
shallowly: HTML documents are abstracted (as the design notes prescribe)
to lists of tables, tables to lists of rows, rows to lists of typed
cells carrying their raw text.  Stringly code is modelled over List Char
with explicit, executable definitions.
-/

/-- Whitespace class of Python regular-expression space and of
String.strip for the code points that can occur in practice
(ASCII whitespace, the C1 separators, NBSP and the Unicode space
separators).  Used by the model of clean (sync_roles.py lines 35-38). -/
def isPySpace (c : Char) : Bool :=
  (9 ≤ c.toNat && c.toNat ≤ 13) || c.toNat == 32 || (28 ≤ c.toNat && c.toNat ≤ 31) ||
    c.toNat == 133 || c.toNat == 160 || c.toNat == 5760 ||
    (8192 ≤ c.toNat && c.toNat ≤ 8202) || c.toNat == 8232 || c.toNat == 8233 ||
    c.toNat == 8239 || c.toNat == 8287 || c.toNat == 12288

/-- Replacement of the non-breaking space by an ordinary space,
sync_roles.py line 36. -/
def subNbsp (c : Char) : Char := if c = Char.ofNat 160 then ' ' else c

/-- Collapse every maximal run of whitespace to a single space, the model
of re.sub of one or more spaces by one space (sync_roles.py line 37).
The flag records whether the previous character was whitespace. -/
def collapseAux : Bool → List Char → List Char
  | _, [] => []
  | prevWS, c :: rest =>
    if isPySpace c then
      if prevWS then collapseAux true rest else ' ' :: collapseAux true rest
    else c :: collapseAux false rest

/-- Remove trailing whitespace. -/
def rstripChars (l : List Char) : List Char := (l.reverse.dropWhile isPySpace).reverse

/-- Remove leading and trailing whitespace, the model of str.strip. -/
def stripChars (l : List Char) : List Char := rstripChars (l.dropWhile isPySpace)

/-- The text normalizer clean of sync_roles.py lines 35-38: replace
non-breaking spaces, collapse whitespace runs, strip. -/
def clean (s : String) : String :=
  String.mk (stripChars (collapseAux false (s.data.map subNbsp)))

/-- Model of str.strip on whole strings. -/
def stripStr (s : String) : String := String.mk (stripChars s.data)

/-- Model of str.lower (ASCII, as in the header fragments involved). -/
def lowerStr (s : String) : String := String.mk (s.data.map Char.toLower)

/-- Model of str.upper, used to canonicalize operation names. -/
def upperStr (s : String) : String := String.mk (s.data.map Char.toUpper)

/-- Boolean test that the first list is an initial segment of the second. -/
def isPrefixB : List Char → List Char → Bool
  | [], _ => true
  | _ :: _, [] => false
  | a :: as, b :: bs => a == b && isPrefixB as bs

/-- Boolean substring test, the model of the Python in operator on
strings (used for header matching). -/
def containsSub (needle : List Char) : List Char → Bool
  | [] => needle.isEmpty
  | c :: t => isPrefixB needle (c :: t) || containsSub needle t

/-- Lexicographic three-way comparison of character lists by code point,
the order Python sorted uses on strings. -/
def lexCmp : List Char → List Char → Ordering
  | [], [] => .eq
  | [], _ :: _ => .lt
  | _ :: _, [] => .gt
  | a :: as, b :: bs => if a < b then .lt else if b < a then .gt else lexCmp as bs

/-- Non-strict lexicographic order on strings. -/
def strLeB (a b : String) : Bool := lexCmp a.data b.data != Ordering.gt

/-- Kind of a table cell: header cell (th) or data cell (td). -/
inductive CellKind
  | th
  | td
deriving DecidableEq, Repr

/-- A cell of a parsed document table: its kind and its raw text. -/
structure Cell where
  kind : CellKind
  text : String
deriving DecidableEq, Repr

/-- A table row is its list of cells. -/
abbrev Row := List Cell

/-- A table is its list of rows, the first row being the header row. -/
abbrev Table := List Row

/-- A parsed document is its list of tables in document order. -/
abbrev Doc := List Table

/-- Normalized lower-cased labels of the header cells of a row
(sync_roles.py line 64). -/
def headerLabelsOf (hr : Row) : List String :=
  (hr.filter fun c => c.kind == CellKind.th).map fun c => lowerStr (clean c.text)

/-- Check of one table by find_best_table (sync_roles.py lines 57-72):
take the first row, require header cells, and require every lower-cased
required fragment to be a substring of some header label. -/
def tableCheck (required : List String) (t : Table) : Option (List String × Table) :=
  match t.head? with
  | none => none
  | some hr =>
    if (hr.filter fun c => c.kind == CellKind.th).isEmpty then none
    else
      let headers := headerLabelsOf hr
      if required.all (fun req => headers.any fun h => containsSub req.data h.data) then
        some (headers, t)
      else none

/-- First table of the document accepted by tableCheck. -/
def locateTable (required : List String) : Doc → Option (List String × Table)
  | [] => none
  | t :: rest =>
    match tableCheck required t with
    | some v => some v
    | none => locateTable required rest

/-- The table locator find_best_table of sync_roles.py lines 54-74. -/
def find_best_table (doc : Doc) (required_headers : List String) : Option (List String × Table) :=
  locateTable (required_headers.map lowerStr) doc

/-- Index of the first header label containing the key, or none
(the -1 sentinel of idx_contains in sync_roles.py lines 104-109). -/
def idxContainsAux (key : List Char) : List String → Option Nat
  | [] => none
  | h :: t => if containsSub key h.data then some 0 else (idxContainsAux key t).map (· + 1)

/-- The column resolver idx_contains: lower-case the key and find the
first header label containing it. -/
def idx_contains (headers : List String) (key : String) : Option Nat :=
  idxContainsAux (lowerStr key).data headers

/-- Row record of the Classic API table (sync_roles.py lines 77-81). -/
structure ClassicRow where
  endpoint : String
  operation : String
  required_privileges : String
deriving DecidableEq, Repr

/-- Row record of the Jamf Pro API table (sync_roles.py lines 84-89). -/
structure ProdRow where
  endpoint : String
  operation : String
  privilege_requirements : String
  deprecation_date : String
deriving DecidableEq, Repr

/-- Deduplication key of a classic row: the full field tuple. -/
def classicKey (r : ClassicRow) : String × String × String :=
  (r.endpoint, r.operation, r.required_privileges)

/-- Deduplication key of a pro row: the full field tuple, deprecation
included (sync_roles.py line 208). -/
def prodKey (r : ProdRow) : String × String × String × String :=
  (r.endpoint, r.operation, r.privilege_requirements, r.deprecation_date)

/-- The seen-set deduplication loop of sync_roles.py lines 142-149 and
205-211: drop an element whose key was already seen, keep the first
occurrence in place. -/
def dedupKeyed {α κ : Type} [DecidableEq κ] (key : α → κ) : List κ → List α → List α
  | _, [] => []
  | seen, r :: rest =>
    if key r ∈ seen then dedupKeyed key seen rest
    else r :: dedupKeyed key (key r :: seen) rest

/-- Empty deprecation cells become the literal string N/A
(sync_roles.py line 191). -/
def normDeprCell (c : String) : String := if c = "" then "N/A" else c

/-- Extraction of one classic data row (sync_roles.py lines 119-140):
skip rows without data cells, rows too short for the highest resolved
index, and rows with empty endpoint or operation; upper-case the
operation. -/
def classicRowOf (iE iO iP : Nat) (tr : Row) : Option ClassicRow :=
  let tds := tr.filter fun c => c.kind == CellKind.td
  if tds.isEmpty then none
  else
    let cells := tds.map fun c => clean c.text
    if cells.length ≤ max iE (max iO iP) then none
    else
      let endpoint := cells.getD iE ""
      let operation := upperStr (cells.getD iO "")
      let privs := cells.getD iP ""
      if endpoint = "" ∨ operation = "" then none
      else some ⟨endpoint, operation, privs⟩

/-- Extraction of one pro data row (sync_roles.py lines 180-203), with
the deprecation column and its empty-cell default. -/
def prodRowOf (iE iO iP iD : Nat) (tr : Row) : Option ProdRow :=
  let tds := tr.filter fun c => c.kind == CellKind.td
  if tds.isEmpty then none
  else
    let cells := tds.map fun c => clean c.text
    if cells.length ≤ max (max iE iO) (max iP iD) then none
    else
      let endpoint := cells.getD iE ""
      let operation := upperStr (cells.getD iO "")
      let privs := cells.getD iP ""
      let depr := normDeprCell (cells.getD iD "")
      if endpoint = "" ∨ operation = "" then none
      else some ⟨endpoint, operation, privs, depr⟩

/-- The fatal error taxonomy of the run. -/
inductive SyncError
  | classicTableNotFound
  | classicUnexpectedHeaders (headers : List String)
  | prodTableNotFound
  | prodUnexpectedHeaders (headers : List String)
  | fetchFailure (msg : String)
deriving DecidableEq, Repr

/-- Required header fragments of the classic document (line 97). -/
def classicRequiredHeaders : List String := ["Endpoint", "Operation", "Required Privilege"]

/-- Required header fragments of the pro document (line 157). -/
def prodRequiredHeaders : List String :=
  ["Endpoint", "Operation", "Privilege Requirements", "Deprecation Date"]

/-- parse_classic of sync_roles.py lines 92-149: locate the table,
resolve the three columns, extract the data rows, deduplicate. -/
def parse_classic (doc : Doc) : Except SyncError (List ClassicRow) :=
  match find_best_table doc classicRequiredHeaders with
  | none => .error .classicTableNotFound
  | some (headers, table) =>
    match idx_contains headers "endpoint", idx_contains headers "operation",
        idx_contains headers "required" with
    | some iE, some iO, some iP =>
      .ok (dedupKeyed classicKey [] (table.filterMap (classicRowOf iE iO iP)))
    | _, _, _ => .error (.classicUnexpectedHeaders headers)

/-- parse_prod of sync_roles.py lines 152-212: locate the table, resolve
the four columns, extract the data rows, deduplicate. -/
def parse_prod (doc : Doc) : Except SyncError (List ProdRow) :=
  match find_best_table doc prodRequiredHeaders with
  | none => .error .prodTableNotFound
  | some (headers, table) =>
    match idx_contains headers "endpoint", idx_contains headers "operation",
        idx_contains headers "privilege", idx_contains headers "deprecation" with
    | some iE, some iO, some iP, some iD =>
      .ok (dedupKeyed prodKey [] (table.filterMap (prodRowOf iE iO iP iD)))
    | _, _, _, _ => .error (.prodUnexpectedHeaders headers)

/-- Output endpoint object of the built schema (sync_roles.py
lines 221-228 and 237-244). -/
structure EndpointOut where
  endpoint : String
  operation : String
  privileges : List String
  deprecation_date : Option String
deriving DecidableEq, Repr

/-- The persisted root schema, restricted to its data-bearing fields:
version is the fixed constant, the timestamp and fixed metadata strings
carry no decision logic.  The endpoints of the classic_api and
jamf_pro_api sub-documents are the two endpoint lists. -/
structure RoleSchema where
  version : String
  privilege_categories : List (String × List String)
  all_privileges : List String
  classic_endpoints : List EndpointOut
  jamf_pro_endpoints : List EndpointOut
deriving DecidableEq, Repr

/-- Split a list of characters at every comma, the model of
str.split on a comma. -/
def splitCommaAux (cur : List Char) : List Char → List (List Char)
  | [] => [cur.reverse]
  | c :: t => if c = ',' then cur.reverse :: splitCommaAux [] t else splitCommaAux (c :: cur) t

/-- The privileges list of a row (sync_roles.py lines 220 and 233):
split the cell on commas, strip each fragment, drop empty fragments. -/
def splitPrivs (s : String) : List String :=
  ((splitCommaAux [] s.data).map fun l => stripStr (String.mk l)).filter (· ≠ "")

/-- The category separator, a space-hyphen-space. -/
def sepDash : List Char := [' ', '-', ' ']

/-- Split a list of characters at the first occurrence of the
space-hyphen-space separator, the model of str.split with the separator
and maxsplit one (sync_roles.py line 250); none when the separator does
not occur. -/
def splitDash : List Char → Option (List Char × List Char)
  | [] => none
  | c :: t =>
    if isPrefixB sepDash (c :: t) then some ([], t.drop 2)
    else
      match splitDash t with
      | some (a, b) => some (c :: a, b)
      | none => none

/-- Category split of one privilege string (sync_roles.py lines 249-254):
action and resource at the first separator, with the action stripped,
or the Other category with the whole string as resource. -/
def splitPriv (privilege : String) : String × String :=
  match splitDash privilege.data with
  | some (a, r) => (stripStr (String.mk a), String.mk r)
  | none => ("Other", privilege)

/-- The setdefault-and-append-if-missing update of the category map
(sync_roles.py lines 255-257) over an insertion-ordered association
list: update the entry of the action in place, appending the resource
if absent, or append a fresh entry at the end. -/
def insertCat : List (String × List String) → String → String → List (String × List String)
  | [], a, r => [(a, [r])]
  | (k, rs) :: t, a, r =>
    if k = a then (k, if r ∈ rs then rs else rs ++ [r]) :: t
    else (k, rs) :: insertCat t a r

/-- Lookup of a category by name, first entry with the key. -/
def lookupCat (cats : List (String × List String)) (a : String) : Option (List String) :=
  (cats.find? fun p => p.1 == a).map Prod.snd

/-- Every privilege string of every classic and pro row, comma-split,
in row order (the updates of the all_privs set, lines 229 and 245). -/
def allPrivList (classic_rows : List ClassicRow) (prod_rows : List ProdRow) : List String :=
  (classic_rows.map fun r => splitPrivs r.required_privileges).flatten ++
    (prod_rows.map fun r => splitPrivs r.privilege_requirements).flatten

/-- The distinct privilege strings in lexicographically sorted order,
the model of sorted over the all_privs set (lines 248 and 268). -/
def sortedPrivs (classic_rows : List ClassicRow) (prod_rows : List ProdRow) : List String :=
  List.insertionSort (fun a b => strLeB a b = true)
    (dedupKeyed id [] (allPrivList classic_rows prod_rows))

/-- The category map built by the loop of sync_roles.py lines 247-257,
iterating the sorted distinct privilege strings. -/
def buildCategories (ps : List String) : List (String × List String) :=
  ps.foldl (fun cats privilege => insertCat cats (splitPriv privilege).1 (splitPriv privilege).2) []

/-- Deprecation normalization of the schema builder (sync_roles.py
lines 234-236): strip, default empty to N/A, and map a case-insensitive
N/A to null. -/
def deprToOption (d : String) : Option String :=
  let d0 := if d = "" then "N/A" else stripStr d
  if upperStr d0 = "N/A" then none else some d0

/-- build_schema of sync_roles.py lines 215-278, restricted to the
data-bearing fields of the schema. -/
def build_schema (classic_rows : List ClassicRow) (prod_rows : List ProdRow) : RoleSchema :=
  let classic_endpoints := classic_rows.map fun r =>
    { endpoint := r.endpoint, operation := r.operation,
      privileges := splitPrivs r.required_privileges,
      deprecation_date := (none : Option String) }
  let prod_endpoints := prod_rows.map fun r =>
    { endpoint := r.endpoint, operation := r.operation,
      privileges := splitPrivs r.privilege_requirements,
      deprecation_date := deprToOption r.deprecation_date }
  { version := "1.0.0",
    privilege_categories := buildCategories (sortedPrivs classic_rows prod_rows),
    all_privileges := sortedPrivs classic_rows prod_rows,
    classic_endpoints := classic_endpoints,
    jamf_pro_endpoints := prod_endpoints }

/-- Observable events of a run: progress messages and file writes. -/
inductive Ev
  | msg (s : String)
  | write (f : String)
deriving DecidableEq, Repr

/-- The files written by a run trace. -/
def writesOf (evs : List Ev) : List String :=
  evs.filterMap fun e => match e with | .write f => some f | .msg _ => none

/-- The four output files of sync_roles.py lines 298-331, in write order. -/
def outputFiles : List String :=
  ["jamf-roles.json", "classic-api-roles.json", "jamf-pro-api-roles.json",
    "privilege-categories.json"]

/-- The control flow of main (sync_roles.py lines 281-334) over the two
fetch results: fetch both documents, parse both, build the schema, then
write the four files; an uncaught error terminates the run (non-zero
process status) at the failing step, before any later event. -/
def mainRun (fetchClassic fetchProd : Except SyncError Doc) : List Ev × Except SyncError Nat :=
  let evs := [Ev.msg "Fetching Jamf docs..."]
  match fetchClassic with
  | .error e => (evs, .error e)
  | .ok classicDoc =>
    match fetchProd with
    | .error e => (evs, .error e)
    | .ok prodDoc =>
      let evs := evs ++ [Ev.msg "Parsing tables..."]
      match parse_classic classicDoc with
      | .error e => (evs, .error e)
      | .ok classic_rows =>
        match parse_prod prodDoc with
        | .error e => (evs, .error e)
        | .ok prod_rows =>
          let evs := evs ++ [Ev.msg "Classic rows", Ev.msg "Prod rows"]
          let _schema := build_schema classic_rows prod_rows
          (evs ++ [Ev.write "jamf-roles.json", Ev.write "classic-api-roles.json",
              Ev.write "jamf-pro-api-roles.json", Ev.write "privilege-categories.json",
              Ev.msg "Completed writing roles"], .ok 0)

/-- Adjacent characters of a normalized string are never both whitespace. -/
def noTwoSpaces (l : List Char) : Prop :=
  List.Chain' (fun a b => isPySpace a = false ∨ isPySpace b = false) l

lemma collapseAux_nil (b : Bool) : collapseAux b [] = [] := rfl

lemma collapseAux_cons_sp_t {a : Char} {rest : List Char} (ha : isPySpace a = true) :
    collapseAux true (a :: rest) = collapseAux true rest := by
  simp [collapseAux, ha]

lemma collapseAux_cons_sp_f {a : Char} {rest : List Char} (ha : isPySpace a = true) :
    collapseAux false (a :: rest) = ' ' :: collapseAux true rest := by
  simp [collapseAux, ha]

lemma collapseAux_cons_ns {a : Char} {rest : List Char} (b : Bool) (ha : isPySpace a = false) :
    collapseAux b (a :: rest) = a :: collapseAux false rest := by
  simp [collapseAux, ha]

lemma mem_collapseAux {c : Char} : ∀ (l : List Char) (b : Bool),
    c ∈ collapseAux b l → isPySpace c = true → c = ' ' := by
  intro l
  induction l with
  | nil => intro b h; rw [collapseAux_nil] at h; simp at h
  | cons a rest ih =>
    intro b h hsp
    by_cases ha : isPySpace a = true
    · cases b with
      | true =>
        rw [collapseAux_cons_sp_t ha] at h
        exact ih true h hsp
      | false =>
        rw [collapseAux_cons_sp_f ha] at h
        rcases List.mem_cons.mp h with h1 | h2
        · exact h1
        · exact ih true h2 hsp
    · rw [collapseAux_cons_ns b (by simpa using ha)] at h
      rcases List.mem_cons.mp h with h1 | h2
      · exact absurd (h1 ▸ hsp) (by simp [ha])
      · exact ih false h2 hsp

lemma head_collapseAux_true {c : Char} : ∀ (l : List Char),
    (collapseAux true l).head? = some c → isPySpace c = false := by
  intro l
  induction l with
  | nil => intro h; rw [collapseAux_nil] at h; simp at h
  | cons a rest ih =>
    intro h
    by_cases ha : isPySpace a = true
    · rw [collapseAux_cons_sp_t ha] at h
      exact ih h
    · rw [collapseAux_cons_ns true (by simpa using ha)] at h
      simp only [List.head?_cons, Option.some.injEq] at h
      subst h
      simpa using ha

lemma chain_collapseAux : ∀ (l : List Char) (b : Bool), noTwoSpaces (collapseAux b l) := by
  intro l
  induction l with
  | nil => intro b; rw [collapseAux_nil]; simp [noTwoSpaces]
  | cons a rest ih =>
    intro b
    by_cases ha : isPySpace a = true
    · cases b with
      | true => rw [collapseAux_cons_sp_t ha]; exact ih true
      | false =>
        rw [collapseAux_cons_sp_f ha]
        refine List.chain'_cons'.mpr ⟨?_, ih true⟩
        intro y hy
        exact Or.inr (head_collapseAux_true rest hy)
    · rw [collapseAux_cons_ns b (by simpa using ha)]
      refine List.chain'_cons'.mpr ⟨?_, ih false⟩
      intro y hy
      exact Or.inl (by simpa using ha)

lemma collapseAux_eq_self : ∀ (l : List Char) (b : Bool),
    (∀ c ∈ l, isPySpace c = true → c = ' ') → noTwoSpaces l →
    (b = true → ∀ c, l.head? = some c → isPySpace c = false) →
    collapseAux b l = l := by
  intro l
  induction l with
  | nil => intro b _ _ _; rfl
  | cons a rest ih =>
    intro b hmem hch hhd
    by_cases ha : isPySpace a = true
    · cases b with
      | true => exact absurd ha (by simp [hhd rfl a rfl])
      | false =>
        have haeq : a = ' ' := hmem a (List.mem_cons_self a rest) ha
        rw [collapseAux_cons_sp_f ha]
        have hrest : collapseAux true rest = rest := by
          refine ih true (fun c hc => hmem c (List.mem_cons_of_mem a hc)) hch.tail ?_
          intro _ c hc
          cases rest with
          | nil => simp at hc
          | cons r rt =>
            simp only [List.head?_cons, Option.some.injEq] at hc
            subst hc
            rcases List.chain'_cons.mp hch with ⟨hab, _⟩
            rcases hab with h1 | h2
            · exact absurd ha (by simp [h1])
            · exact h2
        rw [hrest, haeq]
    · rw [collapseAux_cons_ns b (by simpa using ha)]
      rw [ih false (fun c hc => hmem c (List.mem_cons_of_mem a hc)) hch.tail
        (fun hb => by cases hb)]

lemma mem_dropWhileSub {p : Char → Bool} {c : Char} {l : List Char}
    (h : c ∈ l.dropWhile p) : c ∈ l :=
  (List.dropWhile_sublist (l := l) (p := p)).mem h

lemma mem_rstripChars {c : Char} {l : List Char} (h : c ∈ rstripChars l) : c ∈ l := by
  unfold rstripChars at h
  rw [List.mem_reverse] at h
  have := mem_dropWhileSub h
  rwa [List.mem_reverse] at this

lemma mem_stripChars {c : Char} {l : List Char} (h : c ∈ stripChars l) : c ∈ l :=
  mem_dropWhileSub (mem_rstripChars h)

lemma chain_dropWhileNS {l : List Char} (h : noTwoSpaces l) :
    noTwoSpaces (l.dropWhile isPySpace) := by
  induction l with
  | nil => simpa using h
  | cons a rest ih =>
    by_cases ha : isPySpace a = true
    · rw [List.dropWhile_cons, if_pos ha]
      exact ih h.tail
    · rw [List.dropWhile_cons, if_neg (by simpa using ha)]
      exact h

lemma chain_reverseNS {l : List Char} (h : noTwoSpaces l) : noTwoSpaces l.reverse := by
  unfold noTwoSpaces at h ⊢
  rw [List.chain'_reverse]
  exact h.imp (fun a b hab => Or.symm hab)

lemma chain_rstripCharsNS {l : List Char} (h : noTwoSpaces l) : noTwoSpaces (rstripChars l) :=
  chain_reverseNS (chain_dropWhileNS (chain_reverseNS h))

lemma chain_stripCharsNS {l : List Char} (h : noTwoSpaces l) : noTwoSpaces (stripChars l) :=
  chain_rstripCharsNS (chain_dropWhileNS h)

lemma head_dropWhileNot {p : Char → Bool} : ∀ (l : List Char) (c : Char),
    (l.dropWhile p).head? = some c → p c = false := by
  intro l
  induction l with
  | nil => intro c h; simp at h
  | cons a rest ih =>
    intro c h
    by_cases ha : p a = true
    · rw [List.dropWhile_cons, if_pos ha] at h
      exact ih c h
    · rw [List.dropWhile_cons, if_neg (by simpa using ha)] at h
      simp only [List.head?_cons, Option.some.injEq] at h
      subst h
      simpa using ha

lemma exists_dropWhile_decomp (p : Char → Bool) : ∀ (l : List Char),
    ∃ pre, pre ++ l.dropWhile p = l := by
  intro l
  induction l with
  | nil => exact ⟨[], rfl⟩
  | cons a rest ih =>
    by_cases ha : p a = true
    · rcases ih with ⟨pre, hpre⟩
      exact ⟨a :: pre, by rw [List.dropWhile_cons, if_pos ha, List.cons_append, hpre]⟩
    · exact ⟨[], by rw [List.dropWhile_cons, if_neg (by simpa using ha)]; rfl⟩

lemma rstripChars_head_cases (a : Char) (t : List Char) :
    rstripChars (a :: t) = [] ∨ ∃ t2, rstripChars (a :: t) = a :: t2 := by
  rcases exists_dropWhile_decomp isPySpace (a :: t).reverse with ⟨pre, hpre⟩
  have hrev : (rstripChars (a :: t)) ++ pre.reverse = a :: t := by
    have := congrArg List.reverse hpre
    rwa [List.reverse_append, List.reverse_reverse] at this
  cases hD : rstripChars (a :: t) with
  | nil => exact Or.inl rfl
  | cons c X =>
    rw [hD, List.cons_append] at hrev
    have hc : c = a := (List.cons.injEq _ _ _ _ ▸ hrev).1
    exact Or.inr ⟨X, by rw [hc]⟩

lemma head_stripChars {l : List Char} {c : Char}
    (h : (stripChars l).head? = some c) : isPySpace c = false := by
  unfold stripChars at h
  cases hu : l.dropWhile isPySpace with
  | nil => rw [hu] at h; simp [rstripChars] at h
  | cons a t =>
    have ha : isPySpace a = false := head_dropWhileNot l a (by rw [hu]; rfl)
    rw [hu] at h
    rcases rstripChars_head_cases a t with h1 | ⟨t2, h2⟩
    · rw [h1] at h; simp at h
    · rw [h2] at h
      simp only [List.head?_cons, Option.some.injEq] at h
      subst h
      exact ha

lemma last_stripChars {l : List Char} {c : Char}
    (h : (stripChars l).getLast? = some c) : isPySpace c = false := by
  unfold stripChars rstripChars at h
  rw [← List.head?_reverse, List.reverse_reverse] at h
  exact head_dropWhileNot _ c h

lemma dropWhile_idem (p : Char → Bool) (l : List Char) :
    (l.dropWhile p).dropWhile p = l.dropWhile p := by
  cases hu : l.dropWhile p with
  | nil => rfl
  | cons a t =>
    have ha : p a = false := head_dropWhileNot l a (by rw [hu]; rfl)
    rw [List.dropWhile_cons, if_neg (by simp [ha])]

lemma rstripChars_idem (l : List Char) : rstripChars (rstripChars l) = rstripChars l := by
  unfold rstripChars
  rw [List.reverse_reverse, dropWhile_idem]

lemma dropWhile_rstripChars (l : List Char) (hl : l.dropWhile isPySpace = l) :
    (rstripChars l).dropWhile isPySpace = rstripChars l := by
  cases l with
  | nil => rfl
  | cons a t =>
    have ha : isPySpace a = false := by
      by_cases h : isPySpace a = true
      · rw [List.dropWhile_cons, if_pos h] at hl
        have hsub : (t.dropWhile isPySpace).length ≤ t.length :=
          (List.dropWhile_sublist (l := t) (p := isPySpace)).length_le
        have hlen : (a :: t).length ≤ t.length := hl ▸ hsub
        simp at hlen
      · simpa using h
    rcases rstripChars_head_cases a t with h1 | ⟨t2, h2⟩
    · rw [h1]; rfl
    · rw [h2, List.dropWhile_cons, if_neg (by simp [ha])]

lemma stripChars_idem (l : List Char) : stripChars (stripChars l) = stripChars l := by
  unfold stripChars
  rw [dropWhile_rstripChars (l.dropWhile isPySpace) (dropWhile_idem isPySpace l),
    rstripChars_idem]

lemma mapIdOn {α : Type} (f : α → α) : ∀ (l : List α), (∀ c ∈ l, f c = c) → l.map f = l := by
  intro l
  induction l with
  | nil => intro _; rfl
  | cons a t ih =>
    intro h
    rw [List.map_cons, h a (List.mem_cons_self a t),
      ih (fun c hc => h c (List.mem_cons_of_mem a hc))]

lemma data_clean (s : String) :
    (clean s).data = stripChars (collapseAux false (s.data.map subNbsp)) := rfl

lemma mem_clean_space {s : String} {c : Char}
    (h : c ∈ (clean s).data) (hsp : isPySpace c = true) : c = ' ' := by
  rw [data_clean] at h
  exact mem_collapseAux _ false (mem_stripChars h) hsp

lemma chain_clean (s : String) : noTwoSpaces (clean s).data := by
  rw [data_clean]
  exact chain_stripCharsNS (chain_collapseAux _ false)

lemma map_subNbsp_clean (s : String) : (clean s).data.map subNbsp = (clean s).data := by
  refine mapIdOn subNbsp _ ?_
  intro c hc
  unfold subNbsp
  by_cases h : c = Char.ofNat 160
  · have hc' : c = ' ' := mem_clean_space hc (by rw [h]; decide)
    rw [hc'] at h
    exact absurd h (by decide)
  · rw [if_neg h]

lemma stripChars_clean (s : String) : stripChars (clean s).data = (clean s).data := by
  rw [data_clean, stripChars_idem]

lemma collapseAux_clean (s : String) : collapseAux false (clean s).data = (clean s).data :=
  collapseAux_eq_self _ false (fun c hc => mem_clean_space hc) (chain_clean s)
    (fun hb => by cases hb)

lemma clean_idem (s : String) : clean (clean s) = clean s := by
  show String.mk (stripChars (collapseAux false ((clean s).data.map subNbsp))) = clean s
  rw [map_subNbsp_clean, collapseAux_clean, stripChars_clean]

lemma stripStr_clean (s : String) : stripStr (clean s) = clean s := by
  show String.mk (stripChars (clean s).data) = clean s
  rw [stripChars_clean]

lemma isPrefixB_iff : ∀ (a b : List Char), isPrefixB a b = true ↔ ∃ t, b = a ++ t := by
  intro a
  induction a with
  | nil => intro b; simp [isPrefixB]
  | cons x xs ih =>
    intro b
    cases b with
    | nil => simp [isPrefixB]
    | cons y ys =>
      simp only [isPrefixB, Bool.and_eq_true, beq_iff_eq]
      constructor
      · rintro ⟨hxy, hp⟩
        rcases (ih ys).mp hp with ⟨t, ht⟩
        exact ⟨t, by rw [hxy, ht]; rfl⟩
      · rintro ⟨t, ht⟩
        rw [List.cons_append] at ht
        rcases List.cons.injEq _ _ _ _ ▸ ht with ⟨h1, h2⟩
        exact ⟨h1.symm, (ih ys).mpr ⟨t, h2⟩⟩

lemma containsSub_iff (a : List Char) : ∀ (c : List Char),
    containsSub a c = true ↔ ∃ pre post, c = pre ++ a ++ post := by
  intro c
  induction c with
  | nil =>
    simp only [containsSub, List.isEmpty_iff]
    constructor
    · intro h; exact ⟨[], [], by simp [h]⟩
    · rintro ⟨pre, post, h⟩
      rcases List.append_eq_nil.mp (List.append_eq_nil.mp h.symm).1 with ⟨_, h2⟩
      exact h2
  | cons y ys ih =>
    simp only [containsSub, Bool.or_eq_true]
    constructor
    · rintro (hp | hc)
      · rcases (isPrefixB_iff a (y :: ys)).mp hp with ⟨t, ht⟩
        exact ⟨[], t, by simp [ht]⟩
      · rcases ih.mp hc with ⟨pre, post, h⟩
        exact ⟨y :: pre, post, by simp [h]⟩
    · rintro ⟨pre, post, h⟩
      cases pre with
      | nil =>
        refine Or.inl ((isPrefixB_iff a (y :: ys)).mpr ⟨post, ?_⟩)
        simpa using h
      | cons z zs =>
        refine Or.inr (ih.mpr ⟨zs, post, ?_⟩)
        rw [List.cons_append, List.cons_append] at h
        exact (List.cons.injEq _ _ _ _ ▸ h).2

lemma containsSub_trans {a b c : List Char} (h1 : containsSub a b = true)
    (h2 : containsSub b c = true) : containsSub a c = true := by
  rcases (containsSub_iff a b).mp h1 with ⟨p1, s1, hb⟩
  rcases (containsSub_iff b c).mp h2 with ⟨p2, s2, hc⟩
  refine (containsSub_iff a c).mpr ⟨p2 ++ p1, s1 ++ s2, ?_⟩
  rw [hc, hb]
  simp [List.append_assoc]

lemma dedupKeyed_sublist {α κ : Type} [DecidableEq κ] (key : α → κ) :
    ∀ (l : List α) (seen : List κ), (dedupKeyed key seen l).Sublist l := by
  intro l
  induction l with
  | nil => intro seen; simp [dedupKeyed]
  | cons r rest ih =>
    intro seen
    by_cases h : key r ∈ seen
    · simp only [dedupKeyed, if_pos h]
      exact (ih seen).cons r
    · simp only [dedupKeyed, if_neg h]
      exact (ih (key r :: seen)).cons₂ r

lemma dedupKeyed_nodup {α κ : Type} [DecidableEq κ] (key : α → κ) :
    ∀ (l : List α) (seen : List κ),
      ((dedupKeyed key seen l).map key).Nodup ∧
        ∀ k ∈ (dedupKeyed key seen l).map key, k ∉ seen := by
  intro l
  induction l with
  | nil => intro seen; simp [dedupKeyed]
  | cons r rest ih =>
    intro seen
    by_cases h : key r ∈ seen
    · simpa only [dedupKeyed, if_pos h] using ih seen
    · simp only [dedupKeyed, if_neg h, List.map_cons, List.nodup_cons, List.mem_cons]
      rcases ih (key r :: seen) with ⟨hnd, hns⟩
      refine ⟨⟨?_, hnd⟩, ?_⟩
      · intro hmem
        exact (hns _ hmem) (List.mem_cons_self _ _)
      · rintro k (hk | hk)
        · exact hk ▸ h
        · intro hks
          exact (hns k hk) (List.mem_cons_of_mem _ hks)

lemma dedupKeyed_complete {α κ : Type} [DecidableEq κ] (key : α → κ) :
    ∀ (l : List α) (seen : List κ) (r : α), r ∈ l → key r ∉ seen →
      key r ∈ (dedupKeyed key seen l).map key := by
  intro l
  induction l with
  | nil => intro seen r h; simp at h
  | cons x rest ih =>
    intro seen r hr hns
    by_cases h : key x ∈ seen
    · simp only [dedupKeyed, if_pos h]
      rcases List.mem_cons.mp hr with h1 | h2
      · exact absurd (h1 ▸ h) (h1 ▸ hns)
      · exact ih seen r h2 hns
    · simp only [dedupKeyed, if_neg h, List.map_cons]
      rcases List.mem_cons.mp hr with h1 | h2
      · exact h1 ▸ List.mem_cons_self _ _
      · by_cases hk : key r = key x
        · exact hk ▸ List.mem_cons_self _ _
        · refine List.mem_cons_of_mem _ (ih (key x :: seen) r h2 ?_)
          simpa [hk] using hns

lemma dedupKeyed_find {α κ : Type} [DecidableEq κ] (key : α → κ) [BEq κ] [LawfulBEq κ] :
    ∀ (l : List α) (seen : List κ) (k : κ), k ∉ seen →
      (dedupKeyed key seen l).find? (fun r => key r == k) = l.find? (fun r => key r == k) := by
  intro l
  induction l with
  | nil => intro seen k _; rfl
  | cons x rest ih =>
    intro seen k hk
    by_cases h : key x ∈ seen
    · simp only [dedupKeyed, if_pos h]
      have hne : (key x == k) = false := by
        by_cases he : key x = k
        · exact absurd (he ▸ h) hk
        · simpa using he
      rw [List.find?_cons, hne]
      exact ih seen k hk
    · simp only [dedupKeyed, if_neg h]
      by_cases he : key x = k
      · rw [List.find?_cons, List.find?_cons]
        have : (key x == k) = true := by simpa using he
        rw [this]
      · have hne : (key x == k) = false := by simpa using he
        rw [List.find?_cons, List.find?_cons, hne]
        refine ih (key x :: seen) k ?_
        intro hmem
        rcases List.mem_cons.mp hmem with h1 | h2
        · exact he h1.symm
        · exact hk h2

lemma dedupKeyed_congr {α κ : Type} [DecidableEq κ] (key : α → κ) :
    ∀ (l : List α) (s1 s2 : List κ), (∀ x, x ∈ s1 ↔ x ∈ s2) →
      dedupKeyed key s1 l = dedupKeyed key s2 l := by
  intro l
  induction l with
  | nil => intro s1 s2 _; rfl
  | cons x rest ih =>
    intro s1 s2 hs
    by_cases h : key x ∈ s1
    · rw [dedupKeyed, dedupKeyed, if_pos h, if_pos ((hs _).mp h)]
      exact ih s1 s2 hs
    · rw [dedupKeyed, dedupKeyed, if_neg h, if_neg (fun hh => h ((hs _).mpr hh))]
      rw [ih (key x :: s1) (key x :: s2) (by intro y; simp [hs y])]

lemma mem_dedupKeyed_id {α : Type} [DecidableEq α] :
    ∀ (l : List α) (seen : List α) (x : α),
      x ∈ dedupKeyed (id : α → α) seen l ↔ x ∈ l ∧ x ∉ seen := by
  intro l
  induction l with
  | nil => intro seen x; simp [dedupKeyed]
  | cons a rest ih =>
    intro seen x
    by_cases h : a ∈ seen
    · rw [dedupKeyed, if_pos (by simpa using h)]
      rw [ih seen x]
      constructor
      · rintro ⟨h1, h2⟩; exact ⟨List.mem_cons_of_mem a h1, h2⟩
      · rintro ⟨h1, h2⟩
        rcases List.mem_cons.mp h1 with rfl | h3
        · exact absurd h h2
        · exact ⟨h3, h2⟩
    · rw [dedupKeyed, if_neg (by simpa using h)]
      rw [List.mem_cons, ih (id a :: seen) x]
      simp only [id_eq]
      constructor
      · rintro (hxa | ⟨h1, h2⟩)
        · subst hxa
          exact ⟨List.mem_cons_self x rest, h⟩
        · exact ⟨List.mem_cons_of_mem a h1, fun hx => h2 (List.mem_cons_of_mem a hx)⟩
      · rintro ⟨h1, h2⟩
        by_cases hx : x = a
        · exact Or.inl hx
        · rcases List.mem_cons.mp h1 with rfl | h3
          · exact Or.inl rfl
          · exact Or.inr ⟨h3, by simp [hx, h2]⟩

lemma lexCmp_eq_iff : ∀ (l m : List Char), lexCmp l m = Ordering.eq ↔ l = m := by
  intro l
  induction l with
  | nil => intro m; cases m <;> simp [lexCmp]
  | cons a as ih =>
    intro m
    cases m with
    | nil => simp [lexCmp]
    | cons b bs =>
      simp only [lexCmp]
      by_cases h1 : a < b
      · rw [if_pos h1]
        simp only [List.cons.injEq]
        constructor
        · intro h; cases h
        · rintro ⟨rfl, _⟩; exact absurd h1 (lt_irrefl a)
      · rw [if_neg h1]
        by_cases h2 : b < a
        · rw [if_pos h2]
          simp only [List.cons.injEq]
          constructor
          · intro h; cases h
          · rintro ⟨rfl, _⟩; exact absurd h2 (lt_irrefl a)
        · rw [if_neg h2]
          have hab : a = b := le_antisymm (not_lt.mp h2) (not_lt.mp h1)
          simp [ih bs, hab]

lemma lexCmp_swap : ∀ (l m : List Char), lexCmp l m = Ordering.lt ↔ lexCmp m l = Ordering.gt := by
  intro l
  induction l with
  | nil => intro m; cases m <;> simp [lexCmp]
  | cons a as ih =>
    intro m
    cases m with
    | nil => simp [lexCmp]
    | cons b bs =>
      simp only [lexCmp]
      by_cases h1 : a < b
      · have h2 : ¬ b < a := not_lt.mpr (le_of_lt h1)
        rw [if_pos h1, if_neg h2, if_pos h1]
        simp
      · rw [if_neg h1]
        by_cases h2 : b < a
        · rw [if_pos h2, if_pos h2]
          simp
        · rw [if_neg h2, if_neg h2, if_neg h1]
          exact ih bs

lemma lexCmp_lt_trans : ∀ (l m k : List Char), lexCmp l m = Ordering.lt →
    lexCmp m k = Ordering.lt → lexCmp l k = Ordering.lt := by
  intro l
  induction l with
  | nil =>
    intro m k h1 h2
    cases m with
    | nil => cases h1
    | cons b bs =>
      cases k with
      | nil => cases h2
      | cons c cs => rfl
  | cons a as ih =>
    intro m k h1 h2
    cases m with
    | nil => cases h1
    | cons b bs =>
      cases k with
      | nil => cases h2
      | cons c cs =>
        simp only [lexCmp] at h1 h2 ⊢
        by_cases hab : a < b
        · by_cases hbc : b < c
          · rw [if_pos (lt_trans hab hbc)]
          · by_cases hcb : c < b
            · rw [if_neg hbc, if_pos hcb] at h2
              cases h2
            · have hbc' : b = c := le_antisymm (not_lt.mp hcb) (not_lt.mp hbc)
              rw [if_pos (hbc' ▸ hab)]
        · by_cases hba : b < a
          · rw [if_pos hba, if_neg hab] at h1
            cases h1
          · have hab' : a = b := le_antisymm (not_lt.mp hba) (not_lt.mp hab)
            rw [if_neg hab, if_neg hba] at h1
            subst hab'
            by_cases hbc : a < c
            · rw [if_pos hbc]
            · by_cases hcb : c < a
              · rw [if_neg hbc, if_pos hcb] at h2
                cases h2
              · rw [if_neg hbc, if_neg hcb] at h2 ⊢
                exact ih bs cs h1 h2

lemma bne_gt_iff (o : Ordering) : (o != Ordering.gt) = true ↔ o ≠ Ordering.gt := by
  cases o <;> decide

lemma strLeB_total (a b : String) : strLeB a b = true ∨ strLeB b a = true := by
  unfold strLeB
  rw [bne_gt_iff, bne_gt_iff]
  by_cases h : lexCmp a.data b.data = Ordering.gt
  · have hlt : lexCmp b.data a.data = Ordering.lt := (lexCmp_swap b.data a.data).mpr h
    right
    rw [hlt]
    decide
  · exact Or.inl h

lemma strLeB_trans (a b c : String) (h1 : strLeB a b = true) (h2 : strLeB b c = true) :
    strLeB a c = true := by
  unfold strLeB at h1 h2 ⊢
  rw [bne_gt_iff] at h1 h2 ⊢
  intro hac
  have hca : lexCmp c.data a.data = Ordering.lt := (lexCmp_swap c.data a.data).mpr hac
  cases hab : lexCmp a.data b.data with
  | lt =>
    have hcb : lexCmp c.data b.data = Ordering.lt := lexCmp_lt_trans _ _ _ hca hab
    exact h2 ((lexCmp_swap c.data b.data).mp hcb)
  | eq =>
    have hd : a.data = b.data := (lexCmp_eq_iff _ _).mp hab
    rw [hd] at hca
    exact h2 ((lexCmp_swap c.data b.data).mp hca)
  | gt => exact h1 hab

/-- Declarative qualification predicate of the table locator: the table
has a first row, that row has header cells, and every lower-cased
required fragment occurs as a substring of some normalized lower-cased
header label. -/
def QualifiesSpec (required : List String) (t : Table) : Prop :=
  ∃ hr rest, t = hr :: rest ∧ (hr.filter fun c => c.kind == CellKind.th) ≠ [] ∧
    ∀ f ∈ required, ∃ h ∈ headerLabelsOf hr,
      ∃ pre post, h.data = pre ++ (lowerStr f).data ++ post

lemma tableCheck_none_iff (required : List String) (t : Table) :
    tableCheck (required.map lowerStr) t = none ↔ ¬ QualifiesSpec required t := by
  cases t with
  | nil =>
    constructor
    · rintro _ ⟨hr, rest, h, _⟩
      cases h
    · intro _; rfl
  | cons hr rest =>
    simp only [tableCheck, List.head?_cons]
    by_cases hth : (hr.filter fun c => c.kind == CellKind.th).isEmpty = true
    · rw [if_pos hth]
      constructor
      · rintro _ ⟨hr2, rest2, heq, hne, _⟩
        rcases List.cons.injEq _ _ _ _ ▸ heq with ⟨h1, _⟩
        exact hne (h1 ▸ List.isEmpty_iff.mp hth)
      · intro _; rfl
    · rw [if_neg hth]
      by_cases hall : (required.map lowerStr).all
          (fun req => (headerLabelsOf hr).any fun h => containsSub req.data h.data) = true
      · rw [if_pos hall]
        simp only [reduceCtorEq, false_iff, not_not]
        refine ⟨hr, rest, rfl, fun he => hth (by rw [he]; rfl), ?_⟩
        intro f hf
        have hreq := (List.all_eq_true.mp hall (lowerStr f) (List.mem_map_of_mem lowerStr hf))
        rcases List.any_eq_true.mp hreq with ⟨h, hh, hcs⟩
        rcases (containsSub_iff _ _).mp hcs with ⟨pre, post, hd⟩
        exact ⟨h, hh, pre, post, hd⟩
      · rw [if_neg hall]
        constructor
        · rintro _ ⟨hr2, rest2, heq, hne, hcov⟩
          rcases List.cons.injEq _ _ _ _ ▸ heq with ⟨h1, _⟩
          subst h1
          refine hall (List.all_eq_true.mpr ?_)
          intro req hreq
          rcases List.mem_map.mp hreq with ⟨f, hf, hfr⟩
          rcases hcov f hf with ⟨h, hh, pre, post, hd⟩
          refine List.any_eq_true.mpr ⟨h, hh, ?_⟩
          rw [← hfr]
          exact (containsSub_iff _ _).mpr ⟨pre, post, hd⟩
        · intro _; rfl

lemma tableCheck_some (required : List String) (t : Table) (hs : List String) (t2 : Table)
    (h : tableCheck (required.map lowerStr) t = some (hs, t2)) :
    t2 = t ∧ QualifiesSpec required t ∧
      (∃ hr rest, t = hr :: rest ∧ hs = headerLabelsOf hr) ∧
      (required.map lowerStr).all
        (fun req => hs.any fun hl => containsSub req.data hl.data) = true := by
  cases t with
  | nil => simp [tableCheck] at h
  | cons hr rest =>
    simp only [tableCheck, List.head?_cons] at h
    by_cases hth : (hr.filter fun c => c.kind == CellKind.th).isEmpty = true
    · rw [if_pos hth] at h; cases h
    · rw [if_neg hth] at h
      by_cases hall : (required.map lowerStr).all
          (fun req => (headerLabelsOf hr).any fun hl => containsSub req.data hl.data) = true
      · rw [if_pos hall] at h
        rcases Prod.mk.injEq _ _ _ _ ▸ (Option.some.injEq _ _ ▸ h) with ⟨h1, h2⟩
        subst h1
        refine ⟨h2.symm, ?_, ⟨hr, rest, rfl, rfl⟩, hall⟩
        refine ⟨hr, rest, rfl, fun he => hth (by rw [he]; rfl), ?_⟩
        intro f hf
        have hreq := (List.all_eq_true.mp hall (lowerStr f) (List.mem_map_of_mem lowerStr hf))
        rcases List.any_eq_true.mp hreq with ⟨hl, hh, hcs⟩
        rcases (containsSub_iff _ _).mp hcs with ⟨pre, post, hd⟩
        exact ⟨hl, hh, pre, post, hd⟩
      · rw [if_neg hall] at h; cases h

lemma locateTable_none_iff (required req2 : List String) (hreq : req2 = required.map lowerStr) :
    ∀ (doc : Doc), locateTable req2 doc = none ↔ ∀ t ∈ doc, ¬ QualifiesSpec required t := by
  intro doc
  induction doc with
  | nil => simp [locateTable]
  | cons t rest ih =>
    simp only [locateTable]
    cases hc : tableCheck req2 t with
    | some v =>
      rcases v with ⟨hs2, t2⟩
      constructor
      · intro h; cases h
      · intro hall
        exfalso
        rw [hreq] at hc
        exact hall t (List.mem_cons_self t rest) (tableCheck_some required t hs2 t2 hc).2.1
    | none =>
      rw [ih]
      constructor
      · intro h t2 ht2
        rcases List.mem_cons.mp ht2 with rfl | hm
        · refine (tableCheck_none_iff required t2).mp ?_
          rw [← hreq]
          exact hc
        · exact h t2 hm
      · intro h t2 ht2
        exact h t2 (List.mem_cons_of_mem t ht2)

lemma locateTable_some (required req2 : List String) (hreq : req2 = required.map lowerStr) :
    ∀ (doc : Doc) (hs : List String) (t : Table),
      locateTable req2 doc = some (hs, t) →
      QualifiesSpec required t ∧
        (∃ hr rest, t = hr :: rest ∧ hs = headerLabelsOf hr) ∧
        (∃ d1 d2, doc = d1 ++ t :: d2 ∧ ∀ u ∈ d1, ¬ QualifiesSpec required u) ∧
        req2.all (fun req => hs.any fun hl => containsSub req.data hl.data) = true := by
  intro doc
  induction doc with
  | nil => intro hs t h; cases h
  | cons t0 rest ih =>
    intro hs t h
    simp only [locateTable] at h
    cases hc : tableCheck req2 t0 with
    | some v =>
      rw [hc] at h
      have hv := Option.some.inj h
      subst hv
      rw [hreq] at hc
      rcases tableCheck_some required t0 hs t hc with ⟨ht, hq, hhr, hall⟩
      rw [ht]
      refine ⟨hq, hhr, ⟨[], rest, rfl, by simp⟩, ?_⟩
      rw [hreq]
      exact hall
    | none =>
      rw [hc] at h
      rcases ih hs t h with ⟨hq, hhr, ⟨d1, d2, hdoc, hd1⟩, hall⟩
      refine ⟨hq, hhr, ⟨t0 :: d1, d2, by rw [hdoc]; rfl, ?_⟩, hall⟩
      intro u hu
      rcases List.mem_cons.mp hu with rfl | hm
      · refine (tableCheck_none_iff required u).mp ?_
        rw [← hreq]
        exact hc
      · exact hd1 u hm

lemma idxContainsAux_isSome (key : List Char) : ∀ (hs : List String),
    (idxContainsAux key hs).isSome = true ↔ ∃ h ∈ hs, containsSub key h.data = true := by
  intro hs
  induction hs with
  | nil => simp [idxContainsAux]
  | cons h0 t ih =>
    simp only [idxContainsAux]
    by_cases hc : containsSub key h0.data = true
    · rw [if_pos hc]
      simp only [Option.isSome_some, true_iff]
      exact ⟨h0, List.mem_cons_self h0 t, hc⟩
    · rw [if_neg hc]
      constructor
      · intro hm
        have hs2 : (idxContainsAux key t).isSome = true := by
          cases hx : idxContainsAux key t
          · rw [hx] at hm; simp at hm
          · rfl
        rcases ih.mp hs2 with ⟨h, hmem, hcs⟩
        exact ⟨h, List.mem_cons_of_mem h0 hmem, hcs⟩
      · rintro ⟨h, hm, hcs⟩
        rcases List.mem_cons.mp hm with rfl | hm2
        · exact absurd hcs hc
        · have hs2 := ih.mpr ⟨h, hm2, hcs⟩
          cases hx : idxContainsAux key t
          · rw [hx] at hs2; simp at hs2
          · rfl

lemma upperStr_eq_empty (s : String) : upperStr s = "" ↔ s = "" := by
  constructor
  · intro h
    have hd : (upperStr s).data = [] := by rw [h]
    cases s with
    | mk l =>
      cases l with
      | nil => rfl
      | cons c t => simp [upperStr] at hd
  · intro h
    rw [h]
    rfl

lemma findPair_cons_eq {β : Type} (k a : String) (v : β) (t : List (String × β)) (h : k = a) :
    List.find? (fun p => p.1 == a) ((k, v) :: t) = some (k, v) := by
  simp [List.find?, h]

lemma findPair_cons_ne {β : Type} (k a : String) (v : β) (t : List (String × β)) (h : ¬ k = a) :
    List.find? (fun p => p.1 == a) ((k, v) :: t) = List.find? (fun p => p.1 == a) t := by
  have hb : (k == a) = false := by simpa using h
  simp [List.find?, hb]

lemma lookupCat_insertCat_same : ∀ (cats : List (String × List String)) (a r : String),
    lookupCat (insertCat cats a r) a =
      some (match lookupCat cats a with
        | none => [r]
        | some rs => if r ∈ rs then rs else rs ++ [r]) := by
  intro cats
  induction cats with
  | nil => intro a r; simp [insertCat, lookupCat]
  | cons p t ih =>
    intro a r
    rcases p with ⟨k, rs⟩
    by_cases hk : k = a
    · subst hk
      rw [insertCat, if_pos rfl]
      simp only [lookupCat]
      rw [findPair_cons_eq k k _ t rfl, findPair_cons_eq k k _ t rfl]
      rfl
    · rw [insertCat, if_neg hk]
      simp only [lookupCat]
      rw [findPair_cons_ne k a rs (insertCat t a r) hk, findPair_cons_ne k a rs t hk]
      exact ih a r

lemma lookupCat_insertCat_other : ∀ (cats : List (String × List String)) (a r a2 : String),
    a2 ≠ a → lookupCat (insertCat cats a r) a2 = lookupCat cats a2 := by
  intro cats
  induction cats with
  | nil =>
    intro a r a2 hne
    simp only [insertCat, lookupCat]
    rw [findPair_cons_ne a a2 [r] [] (fun h => hne h.symm)]
  | cons p t ih =>
    intro a r a2 hne
    rcases p with ⟨k, rs⟩
    by_cases hk : k = a
    · subst hk
      rw [insertCat, if_pos rfl]
      simp only [lookupCat]
      rw [findPair_cons_ne k a2 _ t (fun h => hne h.symm),
        findPair_cons_ne k a2 rs t (fun h => hne h.symm)]
    · rw [insertCat, if_neg hk]
      by_cases hk2 : k = a2
      · subst hk2
        simp only [lookupCat]
        rw [findPair_cons_eq k k rs _ rfl, findPair_cons_eq k k rs t rfl]
      · simp only [lookupCat]
        rw [findPair_cons_ne k a2 rs (insertCat t a r) hk2, findPair_cons_ne k a2 rs t hk2]
        exact ih a r a2 hne

/-- Resources contributed to a category, in iteration order: the second
component of the split of every privilege whose action is the category. -/
def resourcesOf (a : String) (ps : List String) : List String :=
  ps.filterMap fun p => if (splitPriv p).1 = a then some (splitPriv p).2 else none

lemma resourcesOf_nil (a : String) : resourcesOf a [] = [] := rfl

lemma resourcesOf_cons (a : String) (p : String) (ps : List String) :
    resourcesOf a (p :: ps) =
      if (splitPriv p).1 = a then (splitPriv p).2 :: resourcesOf a ps else resourcesOf a ps := by
  unfold resourcesOf
  rw [List.filterMap_cons]
  by_cases h : (splitPriv p).1 = a
  · rw [if_pos h, if_pos h]
  · rw [if_neg h, if_neg h]

lemma buildCats_fold_lookup : ∀ (ps : List String) (cats : List (String × List String)) (a : String),
    lookupCat (ps.foldl (fun cs privilege =>
        insertCat cs (splitPriv privilege).1 (splitPriv privilege).2) cats) a =
      (match lookupCat cats a with
        | some rs => some (rs ++ dedupKeyed id rs (resourcesOf a ps))
        | none =>
          if resourcesOf a ps = [] then none
          else some (dedupKeyed id [] (resourcesOf a ps))) := by
  intro ps
  induction ps with
  | nil =>
    intro cats a
    simp only [List.foldl_nil, resourcesOf_nil, dedupKeyed]
    cases lookupCat cats a <;> simp
  | cons p rest ih =>
    intro cats a
    rw [List.foldl_cons, ih, resourcesOf_cons]
    by_cases hp : (splitPriv p).1 = a
    · rw [if_pos hp, ← hp]
      rw [lookupCat_insertCat_same]
      cases hl : lookupCat cats (splitPriv p).1 with
      | none =>
        simp only []
        have hne : ((splitPriv p).2 :: resourcesOf (splitPriv p).1 rest) ≠ [] := by simp
        rw [if_neg (hp ▸ hne)]
        have : dedupKeyed (id : String → String) [] ((splitPriv p).2 :: resourcesOf a rest) =
            (splitPriv p).2 :: dedupKeyed id [(splitPriv p).2] (resourcesOf a rest) := by
          rw [dedupKeyed, if_neg (by simp)]
          rfl
        rw [hp] at *
        rw [this]
        rfl
      | some rs =>
        simp only []
        by_cases hr : (splitPriv p).2 ∈ rs
        · rw [if_pos hr]
          have : dedupKeyed (id : String → String) rs
              ((splitPriv p).2 :: resourcesOf a rest) =
              dedupKeyed id rs (resourcesOf a rest) := by
            rw [dedupKeyed, if_pos (by simpa using hr)]
          rw [hp] at *
          rw [this]
        · rw [if_neg hr]
          have h1 : dedupKeyed (id : String → String) rs
              ((splitPriv p).2 :: resourcesOf a rest) =
              (splitPriv p).2 :: dedupKeyed id ((splitPriv p).2 :: rs) (resourcesOf a rest) := by
            rw [dedupKeyed, if_neg (by simpa using hr)]
            rfl
          have h2 : dedupKeyed (id : String → String) ((splitPriv p).2 :: rs) (resourcesOf a rest) =
              dedupKeyed id (rs ++ [(splitPriv p).2]) (resourcesOf a rest) := by
            refine dedupKeyed_congr id _ _ _ ?_
            intro x
            simp [List.mem_cons, List.mem_append, or_comm]
          rw [hp] at *
          rw [h1, h2]
          simp [List.append_assoc]
    · rw [if_neg hp]
      rw [lookupCat_insertCat_other cats (splitPriv p).1 (splitPriv p).2 a
        (fun h => hp h.symm)]

lemma lookupCat_buildCategories (ps : List String) (a : String) :
    lookupCat (buildCategories ps) a =
      (if resourcesOf a ps = [] then none else some (dedupKeyed id [] (resourcesOf a ps))) := by
  unfold buildCategories
  rw [buildCats_fold_lookup ps [] a]
  simp [lookupCat]

lemma splitDash_spec : ∀ (l : List Char),
    (∀ a b, splitDash l = some (a, b) →
      l = a ++ sepDash ++ b ∧ ∀ a2 b2, l = a2 ++ sepDash ++ b2 → a.length ≤ a2.length) ∧
    (splitDash l = none → ∀ a2 b2, l ≠ a2 ++ sepDash ++ b2) := by
  intro l
  induction l with
  | nil =>
    constructor
    · intro a b h; cases h
    · intro _ a2 b2 h
      have hlen : ([] : List Char).length = (a2 ++ sepDash ++ b2).length := by rw [h]
      simp [sepDash] at hlen
      omega
  | cons c t ih =>
    by_cases hp : isPrefixB sepDash (c :: t) = true
    · rcases (isPrefixB_iff sepDash (c :: t)).mp hp with ⟨t2, ht2⟩
      have hc : c = ' ' ∧ t = '-' :: ' ' :: t2 := by
        rw [show sepDash ++ t2 = ' ' :: '-' :: ' ' :: t2 from rfl] at ht2
        exact ⟨(List.cons.injEq _ _ _ _ ▸ ht2).1, (List.cons.injEq _ _ _ _ ▸ ht2).2⟩
      constructor
      · intro a b h
        rw [splitDash, if_pos hp] at h
        have ha : a = [] ∧ b = t.drop 2 := by
          have h1 := Option.some.inj h
          exact ⟨(congrArg Prod.fst h1).symm, (congrArg Prod.snd h1).symm⟩
        rcases ha with ⟨rfl, rfl⟩
        refine ⟨?_, fun a2 b2 _ => by simp⟩
        rw [hc.1, hc.2]
        rfl
      · intro h
        rw [splitDash, if_pos hp] at h
        cases h
    · have hpn : ∀ b2, c :: t ≠ sepDash ++ b2 := by
        intro b2 hh
        exact hp ((isPrefixB_iff sepDash (c :: t)).mpr ⟨b2, hh⟩)
      constructor
      · intro a b h
        rw [splitDash, if_neg hp] at h
        cases hs : splitDash t with
        | none => rw [hs] at h; cases h
        | some v =>
          rcases v with ⟨a0, b0⟩
          rw [hs] at h
          have h1 := Option.some.inj h
          have ha : a = c :: a0 := (congrArg Prod.fst h1).symm
          have hb : b = b0 := (congrArg Prod.snd h1).symm
          subst ha
          subst hb
          rcases (ih.1 a0 b) hs with ⟨hdec, hmin⟩
          constructor
          · simp [hdec, List.append_assoc]
          · intro a2 b2 hh
            cases a2 with
            | nil => exact absurd (by simpa using hh) (hpn b2)
            | cons c2 a2t =>
              rw [List.cons_append, List.cons_append] at hh
              have ht : t = a2t ++ sepDash ++ b2 := (List.cons.injEq _ _ _ _ ▸ hh).2
              simp only [List.length_cons]
              have := hmin a2t b2 ht
              omega
      · intro h a2 b2 hh
        rw [splitDash, if_neg hp] at h
        cases hs : splitDash t with
        | none =>
          cases a2 with
          | nil => exact (hpn b2) (by simpa using hh)
          | cons c2 a2t =>
            rw [List.cons_append, List.cons_append] at hh
            have ht : t = a2t ++ sepDash ++ b2 := (List.cons.injEq _ _ _ _ ▸ hh).2
            exact (ih.2 hs) a2t b2 ht
        | some v =>
          rw [hs] at h
          rcases v with ⟨a0, b0⟩
          cases h

lemma insertCat_keys : ∀ (cats : List (String × List String)) (a r : String),
    (insertCat cats a r).map Prod.fst =
      if a ∈ cats.map Prod.fst then cats.map Prod.fst else cats.map Prod.fst ++ [a] := by
  intro cats
  induction cats with
  | nil => intro a r; simp [insertCat]
  | cons p t ih =>
    intro a r
    rcases p with ⟨k, rs⟩
    by_cases hk : k = a
    · subst hk
      rw [insertCat, if_pos rfl]
      simp [List.map_cons]
    · rw [insertCat, if_neg hk]
      simp only [List.map_cons]
      rw [ih a r]
      by_cases hm : a ∈ t.map Prod.fst
      · rw [if_pos hm, if_pos (List.mem_cons_of_mem _ hm)]
      · rw [if_neg hm, if_neg ?_]
        · rfl
        · intro hcm
          rcases List.mem_cons.mp hcm with h1 | h2
          · exact hk h1.symm
          · exact hm h2

lemma insertCat_values_nodup : ∀ (cats : List (String × List String)) (a r : String),
    (∀ p ∈ cats, p.2.Nodup) → ∀ p ∈ insertCat cats a r, p.2.Nodup := by
  intro cats
  induction cats with
  | nil =>
    intro a r _ p hp
    simp only [insertCat, List.mem_singleton] at hp
    rw [hp]
    simp
  | cons q t ih =>
    intro a r hall p hp
    rcases q with ⟨k, rs⟩
    by_cases hk : k = a
    · subst hk
      rw [insertCat, if_pos rfl] at hp
      rcases List.mem_cons.mp hp with rfl | hm
      · by_cases hr : r ∈ rs
        · simpa [hr] using hall (k, rs) (List.mem_cons_self _ _)
        · have hnd : rs.Nodup := hall (k, rs) (List.mem_cons_self _ _)
          simp only [hr, if_neg, if_false]
          simp [List.nodup_append, hnd, hr]
      · exact hall p (List.mem_cons_of_mem _ hm)
    · rw [insertCat, if_neg hk] at hp
      rcases List.mem_cons.mp hp with rfl | hm
      · exact hall (k, rs) (List.mem_cons_self _ _)
      · exact ih a r (fun q hq => hall q (List.mem_cons_of_mem _ hq)) p hm

lemma buildCats_values_nodup : ∀ (ps : List String) (cats : List (String × List String)),
    (∀ p ∈ cats, p.2.Nodup) →
    ∀ p ∈ ps.foldl (fun cs privilege =>
        insertCat cs (splitPriv privilege).1 (splitPriv privilege).2) cats, p.2.Nodup := by
  intro ps
  induction ps with
  | nil => intro cats h; simpa using h
  | cons q rest ih =>
    intro cats h
    rw [List.foldl_cons]
    exact ih _ (insertCat_values_nodup cats _ _ h)

lemma buildCats_keys_nodup : ∀ (ps : List String) (cats : List (String × List String)),
    (cats.map Prod.fst).Nodup →
    ((ps.foldl (fun cs privilege =>
        insertCat cs (splitPriv privilege).1 (splitPriv privilege).2) cats).map Prod.fst).Nodup := by
  intro ps
  induction ps with
  | nil => intro cats h; simpa using h
  | cons q rest ih =>
    intro cats h
    rw [List.foldl_cons]
    refine ih _ ?_
    rw [insertCat_keys]
    by_cases hm : (splitPriv q).1 ∈ cats.map Prod.fst
    · rw [if_pos hm]; exact h
    · rw [if_neg hm]
      simp [List.nodup_append, h, hm]

lemma mem_sortedPrivs (cr : List ClassicRow) (pr : List ProdRow) (p : String) :
    p ∈ sortedPrivs cr pr ↔ p ∈ allPrivList cr pr := by
  unfold sortedPrivs
  rw [(List.perm_insertionSort _ _).mem_iff]
  rw [mem_dedupKeyed_id]
  simp

lemma nodup_sortedPrivs (cr : List ClassicRow) (pr : List ProdRow) :
    (sortedPrivs cr pr).Nodup := by
  unfold sortedPrivs
  rw [(List.perm_insertionSort _ _).nodup_iff]
  have h := (dedupKeyed_nodup (id : String → String) (allPrivList cr pr) []).1
  simpa using h

lemma sorted_sortedPrivs (cr : List ClassicRow) (pr : List ProdRow) :
    List.Sorted (fun a b => strLeB a b = true) (sortedPrivs cr pr) :=
  @List.sorted_insertionSort String (fun a b => strLeB a b = true) _
    ⟨strLeB_total⟩ ⟨strLeB_trans⟩ _

lemma mem_allPrivList (cr : List ClassicRow) (pr : List ProdRow) (p : String) :
    p ∈ allPrivList cr pr ↔
      (∃ r ∈ cr, p ∈ splitPrivs r.required_privileges) ∨
        (∃ r ∈ pr, p ∈ splitPrivs r.privilege_requirements) := by
  unfold allPrivList
  rw [List.mem_append]
  constructor
  · rintro (h | h)
    · rcases List.mem_flatten.mp h with ⟨l, hl, hp⟩
      rcases List.mem_map.mp hl with ⟨r, hr, hf⟩
      exact Or.inl ⟨r, hr, hf ▸ hp⟩
    · rcases List.mem_flatten.mp h with ⟨l, hl, hp⟩
      rcases List.mem_map.mp hl with ⟨r, hr, hf⟩
      exact Or.inr ⟨r, hr, hf ▸ hp⟩
  · rintro (⟨r, hr, hp⟩ | ⟨r, hr, hp⟩)
    · exact Or.inl (List.mem_flatten.mpr ⟨_, List.mem_map_of_mem _ hr, hp⟩)
    · exact Or.inr (List.mem_flatten.mpr ⟨_, List.mem_map_of_mem _ hr, hp⟩)

/-- Normalized texts of the data cells of a row, in cell order. -/
def tdCellsOf (tr : Row) : List String :=
  (tr.filter fun c => c.kind == CellKind.td).map fun c => clean c.text

lemma classicRowOf_none_iff (iE iO iP : Nat) (tr : Row)
    (h : (tr.filter fun c => c.kind == CellKind.td) ≠ []) :
    classicRowOf iE iO iP tr = none ↔
      (tdCellsOf tr).length ≤ max iE (max iO iP) ∨
        (tdCellsOf tr).getD iE "" = "" ∨ (tdCellsOf tr).getD iO "" = "" := by
  unfold classicRowOf tdCellsOf
  rw [if_neg (by simpa [List.isEmpty_iff] using h)]
  by_cases hlen : ((tr.filter fun c => c.kind == CellKind.td).map fun c => clean c.text).length ≤
      max iE (max iO iP)
  · rw [if_pos hlen]
    exact ⟨fun _ => Or.inl hlen, fun _ => rfl⟩
  · rw [if_neg hlen]
    by_cases hcond : ((tr.filter fun c => c.kind == CellKind.td).map fun c =>
        clean c.text).getD iE "" = "" ∨
        upperStr (((tr.filter fun c => c.kind == CellKind.td).map fun c =>
          clean c.text).getD iO "") = ""
    · rw [if_pos hcond]
      simp only [true_iff]
      rcases hcond with h1 | h2
      · exact Or.inr (Or.inl h1)
      · exact Or.inr (Or.inr ((upperStr_eq_empty _).mp h2))
    · rw [if_neg hcond]
      simp only [reduceCtorEq, false_iff]
      push_neg at hcond ⊢
      refine ⟨not_le.mp hlen, hcond.1, ?_⟩
      intro h2
      exact hcond.2 ((upperStr_eq_empty _).mpr h2)

lemma classicRowOf_some (iE iO iP : Nat) (tr : Row) (r : ClassicRow)
    (h : classicRowOf iE iO iP tr = some r) :
    r = ClassicRow.mk ((tdCellsOf tr).getD iE "") (upperStr ((tdCellsOf tr).getD iO ""))
      ((tdCellsOf tr).getD iP "") := by
  unfold classicRowOf at h
  by_cases h0 : ((tr.filter fun c => c.kind == CellKind.td)).isEmpty = true
  · rw [if_pos h0] at h; cases h
  · rw [if_neg h0] at h
    by_cases hlen : ((tr.filter fun c => c.kind == CellKind.td).map fun c => clean c.text).length ≤
        max iE (max iO iP)
    · rw [if_pos hlen] at h; cases h
    · rw [if_neg hlen] at h
      by_cases hcond : ((tr.filter fun c => c.kind == CellKind.td).map fun c =>
          clean c.text).getD iE "" = "" ∨
          upperStr (((tr.filter fun c => c.kind == CellKind.td).map fun c =>
            clean c.text).getD iO "") = ""
      · rw [if_pos hcond] at h; cases h
      · rw [if_neg hcond] at h
        exact (Option.some.inj h).symm

lemma prodRowOf_none_iff (iE iO iP iD : Nat) (tr : Row)
    (h : (tr.filter fun c => c.kind == CellKind.td) ≠ []) :
    prodRowOf iE iO iP iD tr = none ↔
      (tdCellsOf tr).length ≤ max (max iE iO) (max iP iD) ∨
        (tdCellsOf tr).getD iE "" = "" ∨ (tdCellsOf tr).getD iO "" = "" := by
  unfold prodRowOf tdCellsOf
  rw [if_neg (by simpa [List.isEmpty_iff] using h)]
  by_cases hlen : ((tr.filter fun c => c.kind == CellKind.td).map fun c => clean c.text).length ≤
      max (max iE iO) (max iP iD)
  · rw [if_pos hlen]
    exact ⟨fun _ => Or.inl hlen, fun _ => rfl⟩
  · rw [if_neg hlen]
    by_cases hcond : ((tr.filter fun c => c.kind == CellKind.td).map fun c =>
        clean c.text).getD iE "" = "" ∨
        upperStr (((tr.filter fun c => c.kind == CellKind.td).map fun c =>
          clean c.text).getD iO "") = ""
    · rw [if_pos hcond]
      simp only [true_iff]
      rcases hcond with h1 | h2
      · exact Or.inr (Or.inl h1)
      · exact Or.inr (Or.inr ((upperStr_eq_empty _).mp h2))
    · rw [if_neg hcond]
      simp only [reduceCtorEq, false_iff]
      push_neg at hcond ⊢
      refine ⟨not_le.mp hlen, hcond.1, ?_⟩
      intro h2
      exact hcond.2 ((upperStr_eq_empty _).mpr h2)

lemma prodRowOf_some (iE iO iP iD : Nat) (tr : Row) (r : ProdRow)
    (h : prodRowOf iE iO iP iD tr = some r) :
    r = ProdRow.mk ((tdCellsOf tr).getD iE "") (upperStr ((tdCellsOf tr).getD iO ""))
      ((tdCellsOf tr).getD iP "") (normDeprCell ((tdCellsOf tr).getD iD "")) := by
  unfold prodRowOf at h
  by_cases h0 : ((tr.filter fun c => c.kind == CellKind.td)).isEmpty = true
  · rw [if_pos h0] at h; cases h
  · rw [if_neg h0] at h
    by_cases hlen : ((tr.filter fun c => c.kind == CellKind.td).map fun c => clean c.text).length ≤
        max (max iE iO) (max iP iD)
    · rw [if_pos hlen] at h; cases h
    · rw [if_neg hlen] at h
      by_cases hcond : ((tr.filter fun c => c.kind == CellKind.td).map fun c =>
          clean c.text).getD iE "" = "" ∨
          upperStr (((tr.filter fun c => c.kind == CellKind.td).map fun c =>
            clean c.text).getD iO "") = ""
      · rw [if_pos hcond] at h; cases h
      · rw [if_neg hcond] at h
        exact (Option.some.inj h).symm

lemma build_schema_all (cr : List ClassicRow) (pr : List ProdRow) :
    (build_schema cr pr).all_privileges = sortedPrivs cr pr := rfl

lemma build_schema_cats (cr : List ClassicRow) (pr : List ProdRow) :
    (build_schema cr pr).privilege_categories = buildCategories (sortedPrivs cr pr) := rfl

lemma build_schema_classic (cr : List ClassicRow) (pr : List ProdRow) :
    (build_schema cr pr).classic_endpoints = cr.map (fun r =>
      EndpointOut.mk r.endpoint r.operation (splitPrivs r.required_privileges) none) := rfl

lemma build_schema_prod (cr : List ClassicRow) (pr : List ProdRow) :
    (build_schema cr pr).jamf_pro_endpoints = pr.map (fun r =>
      EndpointOut.mk r.endpoint r.operation (splitPrivs r.privilege_requirements)
        (deprToOption r.deprecation_date)) := rfl

/-- C8: the text normalizer clean is a pure total idempotent function:
clean (clean s) = clean s for every string; every whitespace character
surviving normalization is an ordinary space (so non-breaking spaces are
gone), no two adjacent characters of the result are whitespace (runs are
collapsed to one space), the result neither starts nor ends with
whitespace (trimmed), and the concrete example with non-breaking spaces
and a newline maps to the single-spaced trimmed form. -/
theorem C8_clean_normalizer :
    (∀ s : String, clean (clean s) = clean s) ∧
    (∀ (s : String) (c : Char), c ∈ (clean s).data → isPySpace c = true → c = ' ') ∧
    (∀ s : String, noTwoSpaces (clean s).data) ∧
    (∀ (s : String) (c : Char), (clean s).data.head? = some c → isPySpace c = false) ∧
    (∀ (s : String) (c : Char), (clean s).data.getLast? = some c → isPySpace c = false) ∧
    clean " a   b \n c " = "a b c" := by
  refine ⟨clean_idem, fun s c h hs => mem_clean_space h hs, chain_clean, ?_, ?_, by decide⟩
  · intro s c h
    rw [data_clean] at h
    exact head_stripChars h
  · intro s c h
    rw [data_clean] at h
    exact last_stripChars h

/-- C8 witness: the idempotence and whitespace facts instantiated at a
concrete input. -/
theorem C8_clean_normalizer_witness :
    clean (clean " a  b ") = clean " a  b " ∧ ' ' = ' ' :=
  ⟨C8_clean_normalizer.1 " a  b ",
    C8_clean_normalizer.2.1 " a b " ' ' (by decide) (by decide)⟩

/-- C4: the table locator returns none exactly when no table qualifies
(first row present, with header cells, every lower-cased required
fragment a substring of some normalized lower-cased header label), and
on success returns the first qualifying table in document order together
with the header labels of its first row; every earlier table does not
qualify. -/
theorem C4_table_locator (doc : Doc) (required : List String) :
    (find_best_table doc required = none ↔ ∀ t ∈ doc, ¬ QualifiesSpec required t) ∧
    (∀ hs t, find_best_table doc required = some (hs, t) →
      QualifiesSpec required t ∧
        (∃ hr rest, t = hr :: rest ∧ hs = headerLabelsOf hr) ∧
        ∃ d1 d2, doc = d1 ++ t :: d2 ∧ ∀ u ∈ d1, ¬ QualifiesSpec required u) := by
  constructor
  · exact locateTable_none_iff required _ rfl doc
  · intro hs t h
    rcases locateTable_some required _ rfl doc hs t h with ⟨hq, hhr, hdc, _⟩
    exact ⟨hq, hhr, hdc⟩

/-- C4 witness: on a concrete document whose first table has no header
cells, the locator returns the second table, which qualifies. -/
theorem C4_table_locator_witness :
    QualifiesSpec ["Endpoint"]
      [[Cell.mk CellKind.th "Endpoint Name"], [Cell.mk CellKind.td "/api"]] :=
  ((C4_table_locator
      [[[Cell.mk CellKind.td "x"]],
        [[Cell.mk CellKind.th "Endpoint Name"], [Cell.mk CellKind.td "/api"]]]
      ["Endpoint"]).2
    ["endpoint name"]
    [[Cell.mk CellKind.th "Endpoint Name"], [Cell.mk CellKind.td "/api"]]
    (by decide)).1

lemma idx_from_all (hs : List String) (req frag : String)
    (hmem : ∃ h ∈ hs, containsSub req.data h.data = true)
    (hsub : containsSub (lowerStr frag).data req.data = true) :
    (idx_contains hs frag).isSome = true := by
  rcases hmem with ⟨h, hm, hc⟩
  exact (idxContainsAux_isSome _ hs).mpr ⟨h, hm, containsSub_trans hsub hc⟩

lemma locate_all_frag (required : List String) (doc : Doc) (hs : List String) (t : Table)
    (h : find_best_table doc required = some (hs, t)) (req : String)
    (hreq : req ∈ required.map lowerStr) :
    ∃ hl ∈ hs, containsSub req.data hl.data = true := by
  rcases locateTable_some required _ rfl doc hs t h with ⟨_, _, _, hall⟩
  exact List.any_eq_true.mp (List.all_eq_true.mp hall req hreq)

/-- C9: whenever the locator succeeds with the configured required
fragments, the per-field column resolution of both parsers succeeds as
well (every field fragment is a substring of a configured required
fragment), so the unexpected-headers error of either parser is
unreachable. -/
theorem C9_resolution_total (doc : Doc) :
    (∀ hs t, find_best_table doc classicRequiredHeaders = some (hs, t) →
      (idx_contains hs "endpoint").isSome = true ∧
        (idx_contains hs "operation").isSome = true ∧
        (idx_contains hs "required").isSome = true) ∧
    (∀ hs t, find_best_table doc prodRequiredHeaders = some (hs, t) →
      (idx_contains hs "endpoint").isSome = true ∧
        (idx_contains hs "operation").isSome = true ∧
        (idx_contains hs "privilege").isSome = true ∧
        (idx_contains hs "deprecation").isSome = true) ∧
    (∀ hs, parse_classic doc ≠ Except.error (SyncError.classicUnexpectedHeaders hs)) ∧
    (∀ hs, parse_prod doc ≠ Except.error (SyncError.prodUnexpectedHeaders hs)) := by
  have hcl : ∀ hs t, find_best_table doc classicRequiredHeaders = some (hs, t) →
      (idx_contains hs "endpoint").isSome = true ∧
        (idx_contains hs "operation").isSome = true ∧
        (idx_contains hs "required").isSome = true := by
    intro hs t h
    refine ⟨idx_from_all hs "endpoint" "endpoint"
        (locate_all_frag _ doc hs t h "endpoint" (by decide)) (by decide),
      idx_from_all hs "operation" "operation"
        (locate_all_frag _ doc hs t h "operation" (by decide)) (by decide),
      idx_from_all hs "required privilege" "required"
        (locate_all_frag _ doc hs t h "required privilege" (by decide)) (by decide)⟩
  have hpr : ∀ hs t, find_best_table doc prodRequiredHeaders = some (hs, t) →
      (idx_contains hs "endpoint").isSome = true ∧
        (idx_contains hs "operation").isSome = true ∧
        (idx_contains hs "privilege").isSome = true ∧
        (idx_contains hs "deprecation").isSome = true := by
    intro hs t h
    refine ⟨idx_from_all hs "endpoint" "endpoint"
        (locate_all_frag _ doc hs t h "endpoint" (by decide)) (by decide),
      idx_from_all hs "operation" "operation"
        (locate_all_frag _ doc hs t h "operation" (by decide)) (by decide),
      idx_from_all hs "privilege requirements" "privilege"
        (locate_all_frag _ doc hs t h "privilege requirements" (by decide)) (by decide),
      idx_from_all hs "deprecation date" "deprecation"
        (locate_all_frag _ doc hs t h "deprecation date" (by decide)) (by decide)⟩
  refine ⟨hcl, hpr, ?_, ?_⟩
  · intro hs
    unfold parse_classic
    cases hf : find_best_table doc classicRequiredHeaders with
    | none => simp
    | some v =>
      rcases v with ⟨hs0, t0⟩
      rcases hcl hs0 t0 hf with ⟨h1, h2, h3⟩
      rcases Option.isSome_iff_exists.mp h1 with ⟨iE, hiE⟩
      rcases Option.isSome_iff_exists.mp h2 with ⟨iO, hiO⟩
      rcases Option.isSome_iff_exists.mp h3 with ⟨iP, hiP⟩
      simp [hiE, hiO, hiP]
  · intro hs
    unfold parse_prod
    cases hf : find_best_table doc prodRequiredHeaders with
    | none => simp
    | some v =>
      rcases v with ⟨hs0, t0⟩
      rcases hpr hs0 t0 hf with ⟨h1, h2, h3, h4⟩
      rcases Option.isSome_iff_exists.mp h1 with ⟨iE, hiE⟩
      rcases Option.isSome_iff_exists.mp h2 with ⟨iO, hiO⟩
      rcases Option.isSome_iff_exists.mp h3 with ⟨iP, hiP⟩
      rcases Option.isSome_iff_exists.mp h4 with ⟨iD, hiD⟩
      simp [hiE, hiO, hiP, hiD]

/-- C9 witness: on a concrete classic document, the field fragments all
resolve after a successful locate. -/
theorem C9_resolution_total_witness :
    (idx_contains ["endpoint", "operation", "required privilege"] "required").isSome = true :=
  ((C9_resolution_total
      [[[Cell.mk CellKind.th "Endpoint", Cell.mk CellKind.th "Operation",
          Cell.mk CellKind.th "Required Privilege"],
        [Cell.mk CellKind.td "/x", Cell.mk CellKind.td "get", Cell.mk CellKind.td "p"]]]).1
    ["endpoint", "operation", "required privilege"]
    [[Cell.mk CellKind.th "Endpoint", Cell.mk CellKind.th "Operation",
        Cell.mk CellKind.th "Required Privilege"],
      [Cell.mk CellKind.td "/x", Cell.mk CellKind.td "get", Cell.mk CellKind.td "p"]]
    (by decide)).2.2

/-- C2: row extraction (classic and pro variants) is per-row: skipping
one row never affects another (extraction distributes over append); a
data row (one with data cells) is skipped exactly when it is too short
to address the highest resolved column index or its normalized endpoint
or operation text is empty; every emitted row carries the normalized
cell texts with the operation canonicalized to upper case. -/
theorem C2_row_extraction :
    (∀ (iE iO iP : Nat) (t1 t2 : Table),
      (t1 ++ t2).filterMap (classicRowOf iE iO iP) =
        t1.filterMap (classicRowOf iE iO iP) ++ t2.filterMap (classicRowOf iE iO iP)) ∧
    (∀ (iE iO iP iD : Nat) (t1 t2 : Table),
      (t1 ++ t2).filterMap (prodRowOf iE iO iP iD) =
        t1.filterMap (prodRowOf iE iO iP iD) ++ t2.filterMap (prodRowOf iE iO iP iD)) ∧
    (∀ (iE iO iP : Nat) (tr : Row), (tr.filter fun c => c.kind == CellKind.td) ≠ [] →
      (classicRowOf iE iO iP tr = none ↔
        (tdCellsOf tr).length ≤ max iE (max iO iP) ∨
          (tdCellsOf tr).getD iE "" = "" ∨ (tdCellsOf tr).getD iO "" = "")) ∧
    (∀ (iE iO iP : Nat) (tr : Row) (r : ClassicRow), classicRowOf iE iO iP tr = some r →
      r = ClassicRow.mk ((tdCellsOf tr).getD iE "") (upperStr ((tdCellsOf tr).getD iO ""))
        ((tdCellsOf tr).getD iP "")) ∧
    (∀ (iE iO iP iD : Nat) (tr : Row), (tr.filter fun c => c.kind == CellKind.td) ≠ [] →
      (prodRowOf iE iO iP iD tr = none ↔
        (tdCellsOf tr).length ≤ max (max iE iO) (max iP iD) ∨
          (tdCellsOf tr).getD iE "" = "" ∨ (tdCellsOf tr).getD iO "" = "")) ∧
    (∀ (iE iO iP iD : Nat) (tr : Row) (r : ProdRow), prodRowOf iE iO iP iD tr = some r →
      r = ProdRow.mk ((tdCellsOf tr).getD iE "") (upperStr ((tdCellsOf tr).getD iO ""))
        ((tdCellsOf tr).getD iP "") (normDeprCell ((tdCellsOf tr).getD iD ""))) := by
  refine ⟨?_, ?_, classicRowOf_none_iff, classicRowOf_some, prodRowOf_none_iff, prodRowOf_some⟩
  · intro iE iO iP t1 t2
    exact List.filterMap_append t1 t2 (classicRowOf iE iO iP)
  · intro iE iO iP iD t1 t2
    exact List.filterMap_append t1 t2 (prodRowOf iE iO iP iD)

/-- C2 witness: a concrete two-cell data row with highest required
index 2 is skipped; a complete row is emitted with an upper-cased
operation. -/
theorem C2_row_extraction_witness :
    classicRowOf 0 1 2 [Cell.mk CellKind.td "E", Cell.mk CellKind.td "get"] = none ∧
    ClassicRow.mk "E" "GET" "p" =
      ClassicRow.mk
        ((tdCellsOf [Cell.mk CellKind.td "E", Cell.mk CellKind.td "get",
            Cell.mk CellKind.td "p"]).getD 0 "")
        (upperStr ((tdCellsOf [Cell.mk CellKind.td "E", Cell.mk CellKind.td "get",
            Cell.mk CellKind.td "p"]).getD 1 ""))
        ((tdCellsOf [Cell.mk CellKind.td "E", Cell.mk CellKind.td "get",
            Cell.mk CellKind.td "p"]).getD 2 "") :=
  ⟨(C2_row_extraction.2.2.1 0 1 2 [Cell.mk CellKind.td "E", Cell.mk CellKind.td "get"]
      (by decide)).mpr (Or.inl (by decide)),
    C2_row_extraction.2.2.2.1 0 1 2
      [Cell.mk CellKind.td "E", Cell.mk CellKind.td "get", Cell.mk CellKind.td "p"]
      (ClassicRow.mk "E" "GET" "p") (by decide)⟩

/-- C3: the deduplication stage of an extraction pass keeps a sublist of
the raw rows (so relative order and positions of kept rows are the
original ones), the full-tuple keys of the output are pairwise distinct,
every raw row's key survives, and the representative kept for any key is
the first occurrence in the raw list; the successful output of
parse_classic is exactly this deduplication of the extracted rows. -/
theorem C3_dedup_first_occurrence :
    (∀ rows : List ClassicRow, (dedupKeyed classicKey [] rows).Sublist rows) ∧
    (∀ rows : List ClassicRow, ((dedupKeyed classicKey [] rows).map classicKey).Nodup) ∧
    (∀ (rows : List ClassicRow) (r : ClassicRow), r ∈ rows →
      classicKey r ∈ (dedupKeyed classicKey [] rows).map classicKey) ∧
    (∀ (rows : List ClassicRow) (k : String × String × String),
      (dedupKeyed classicKey [] rows).find? (fun r => classicKey r == k) =
        rows.find? (fun r => classicKey r == k)) ∧
    (∀ (doc : Doc) (out : List ClassicRow), parse_classic doc = Except.ok out →
      ∃ (iE iO iP : Nat) (table : Table),
        out = dedupKeyed classicKey [] (table.filterMap (classicRowOf iE iO iP))) := by
  refine ⟨fun rows => dedupKeyed_sublist classicKey rows [],
    fun rows => (dedupKeyed_nodup classicKey rows []).1,
    fun rows r hr => dedupKeyed_complete classicKey rows [] r hr (by simp),
    fun rows k => dedupKeyed_find classicKey rows [] k (by simp), ?_⟩
  intro doc out h
  cases hf : find_best_table doc classicRequiredHeaders with
  | none =>
    have hpc : parse_classic doc = Except.error SyncError.classicTableNotFound := by
      unfold parse_classic
      rw [hf]
    rw [hpc] at h
    cases h
  | some v =>
    rcases v with ⟨hs, table⟩
    have hpc : parse_classic doc =
        (match idx_contains hs "endpoint", idx_contains hs "operation",
            idx_contains hs "required" with
          | some iE, some iO, some iP =>
            Except.ok (dedupKeyed classicKey [] (table.filterMap (classicRowOf iE iO iP)))
          | _, _, _ => Except.error (SyncError.classicUnexpectedHeaders hs)) := by
      unfold parse_classic
      rw [hf]
    rw [hpc] at h
    cases h1 : idx_contains hs "endpoint" with
    | none => rw [h1] at h; simp at h
    | some iE =>
      rw [h1] at h
      cases h2 : idx_contains hs "operation" with
      | none => rw [h2] at h; simp at h
      | some iO =>
        rw [h2] at h
        cases h3 : idx_contains hs "required" with
        | none => rw [h3] at h; simp at h
        | some iP =>
          rw [h3] at h
          exact ⟨iE, iO, iP, table, (Except.ok.inj h).symm⟩

/-- C3 witness: the first-occurrence facts instantiated on a concrete
duplicated row list. -/
theorem C3_dedup_first_occurrence_witness :
    classicKey (ClassicRow.mk "e" "GET" "P") ∈
      (dedupKeyed classicKey []
        [ClassicRow.mk "e" "GET" "P", ClassicRow.mk "f" "PUT" "Q",
          ClassicRow.mk "e" "GET" "P"]).map classicKey :=
  C3_dedup_first_occurrence.2.2.1
    [ClassicRow.mk "e" "GET" "P", ClassicRow.mk "f" "PUT" "Q", ClassicRow.mk "e" "GET" "P"]
    (ClassicRow.mk "e" "GET" "P") (by decide)

/-- C5: through the pro pipeline a deprecation cell whose normalized
text is empty or matches N/A case-insensitively becomes null, and any
other normalized text is kept verbatim; the pro deduplication key
determines the deprecation field (the key includes it). -/
theorem C5_deprecation_normalization :
    (∀ cellText : String,
      deprToOption (normDeprCell (clean cellText)) =
        if clean cellText = "" ∨ upperStr (clean cellText) = "N/A" then none
        else some (clean cellText)) ∧
    (∀ r r2 : ProdRow, prodKey r = prodKey r2 → r.deprecation_date = r2.deprecation_date) := by
  constructor
  · intro cellText
    by_cases he : clean cellText = ""
    · rw [normDeprCell, if_pos he, if_pos (Or.inl he)]
      rfl
    · rw [normDeprCell, if_neg he]
      unfold deprToOption
      rw [if_neg he, stripStr_clean]
      by_cases hup : upperStr (clean cellText) = "N/A"
      · rw [if_pos hup, if_pos (Or.inr hup)]
      · rw [if_neg hup, if_neg (by push_neg; exact ⟨he, hup⟩)]
  · intro r r2 h
    exact congrArg (fun q => q.2.2.2) h

/-- C5 witness: the normalization instantiated at concrete cells, and
the key-determines-deprecation fact at a concrete row. -/
theorem C5_deprecation_normalization_witness :
    deprToOption (normDeprCell (clean "n/a")) =
      (if clean "n/a" = "" ∨ upperStr (clean "n/a") = "N/A" then none
        else some (clean "n/a")) ∧
    (ProdRow.mk "e" "GET" "P" "iOS 18").deprecation_date =
      (ProdRow.mk "e" "GET" "P" "iOS 18").deprecation_date :=
  ⟨C5_deprecation_normalization.1 "n/a",
    C5_deprecation_normalization.2 (ProdRow.mk "e" "GET" "P" "iOS 18")
      (ProdRow.mk "e" "GET" "P" "iOS 18") rfl⟩

/-- C6: the all_privileges field of the built schema is lexicographically
sorted, duplicate-free, and contains exactly the privilege strings
appearing in the comma-split, trimmed, nonempty-filtered privileges list
of some classic or pro row. -/
theorem C6_all_privileges (cr : List ClassicRow) (pr : List ProdRow) :
    List.Sorted (fun a b => strLeB a b = true) (build_schema cr pr).all_privileges ∧
    (build_schema cr pr).all_privileges.Nodup ∧
    ∀ p : String, p ∈ (build_schema cr pr).all_privileges ↔
      ((∃ r ∈ cr, p ∈ splitPrivs r.required_privileges) ∨
        (∃ r ∈ pr, p ∈ splitPrivs r.privilege_requirements)) := by
  rw [build_schema_all]
  exact ⟨sorted_sortedPrivs cr pr, nodup_sortedPrivs cr pr,
    fun p => (mem_sortedPrivs cr pr p).trans (mem_allPrivList cr pr p)⟩

/-- C1 counterexample: with the privilege string of one row seen before
that of another in row order, the category map built by build_schema
lists the resources of the category in the order induced by the
lexicographically sorted distinct privilege strings, not in the order
the privilege strings were first seen across the extracted rows (which
here would be Zebra before Apple). -/
theorem C1_category_order_counterexample :
    (build_schema [ClassicRow.mk "e1" "GET" "Read - Zebra",
        ClassicRow.mk "e2" "GET" "Read - Apple"] []).privilege_categories =
      [("Read", ["Apple", "Zebra"])] ∧
    (build_schema [ClassicRow.mk "e1" "GET" "Read - Zebra",
        ClassicRow.mk "e2" "GET" "Read - Apple"] []).privilege_categories ≠
      [("Read", ["Zebra", "Apple"])] := by
  constructor
  · decide
  · decide

/-- C1 (amended): in the category map built by build_schema, every
privilege string with the separator is split at its first separator into
action and resource and the resource is grouped under the action; a
string without the separator goes to the Other category with the whole
string as resource; within a category each resource appears at most once
and category keys are distinct; the resources of a category appear in
the order of first occurrence while iterating the lexicographically
sorted distinct privilege strings (not in row first-seen order). -/
theorem C1_privilege_categories (cr : List ClassicRow) (pr : List ProdRow) :
    (∀ a : String, lookupCat (build_schema cr pr).privilege_categories a =
      (if resourcesOf a (sortedPrivs cr pr) = [] then none
        else some (dedupKeyed id [] (resourcesOf a (sortedPrivs cr pr))))) ∧
    (∀ p ∈ sortedPrivs cr pr, ∃ rs,
      lookupCat (build_schema cr pr).privilege_categories (splitPriv p).1 = some rs ∧
        (splitPriv p).2 ∈ rs) ∧
    (∀ entry ∈ (build_schema cr pr).privilege_categories, entry.2.Nodup) ∧
    ((build_schema cr pr).privilege_categories.map Prod.fst).Nodup ∧
    (∀ (p : String) (a b : List Char), splitDash p.data = some (a, b) →
      splitPriv p = (stripStr (String.mk a), String.mk b) ∧
        p.data = a ++ sepDash ++ b ∧
        ∀ a2 b2, p.data = a2 ++ sepDash ++ b2 → a.length ≤ a2.length) ∧
    (∀ p : String, splitDash p.data = none →
      (splitPriv p = ("Other", p) ∧ ∀ a2 b2, p.data ≠ a2 ++ sepDash ++ b2)) := by
  refine ⟨?_, ?_, ?_, ?_, ?_, ?_⟩
  · intro a
    rw [build_schema_cats]
    exact lookupCat_buildCategories _ a
  · intro p hp
    have hmem : (splitPriv p).2 ∈ resourcesOf (splitPriv p).1 (sortedPrivs cr pr) := by
      unfold resourcesOf
      exact List.mem_filterMap.mpr ⟨p, hp, by rw [if_pos rfl]⟩
    have hne : resourcesOf (splitPriv p).1 (sortedPrivs cr pr) ≠ [] :=
      List.ne_nil_of_mem hmem
    rw [build_schema_cats, lookupCat_buildCategories, if_neg hne]
    exact ⟨_, rfl, (mem_dedupKeyed_id _ [] _).mpr ⟨hmem, by simp⟩⟩
  · rw [build_schema_cats]
    unfold buildCategories
    exact buildCats_values_nodup _ [] (by simp)
  · rw [build_schema_cats]
    unfold buildCategories
    exact buildCats_keys_nodup _ [] (by simp)
  · intro p a b hsd
    refine ⟨?_, (splitDash_spec p.data).1 a b hsd⟩
    unfold splitPriv
    rw [hsd]
  · intro p hsd
    refine ⟨?_, fun a2 b2 => (splitDash_spec p.data).2 hsd a2 b2⟩
    unfold splitPriv
    rw [hsd]

/-- C1 witness: the splitting behavior at the spec's concrete examples,
obtained from the amended theorem. -/
theorem C1_privilege_categories_witness :
    splitPriv "Read - Computers" = ("Read", "Computers") ∧
    splitPriv "FullAdmin" = ("Other", "FullAdmin") := by
  constructor
  · exact (((C1_privilege_categories [] []).2.2.2.2.1 "Read - Computers"
      "Read".data "Computers".data (by decide)).1).trans (by decide)
  · exact ((C1_privilege_categories [] []).2.2.2.2.2 "FullAdmin" (by decide)).1

/-- C10: every classic endpoint object of the built schema carries a
deprecation_date field and its value is always null. -/
theorem C10_classic_deprecation_null (cr : List ClassicRow) (pr : List ProdRow) :
    ∀ e ∈ (build_schema cr pr).classic_endpoints, e.deprecation_date = none := by
  intro e he
  rw [build_schema_classic] at he
  rcases List.mem_map.mp he with ⟨r, _, hr⟩
  rw [← hr]

/-- C10 witness: the null deprecation of a concrete classic endpoint. -/
theorem C10_classic_deprecation_null_witness :
    (EndpointOut.mk "e" "GET" ["P"] none).deprecation_date = none :=
  C10_classic_deprecation_null [ClassicRow.mk "e" "GET" "P"] []
    (EndpointOut.mk "e" "GET" ["P"] none) (by decide)

/-- C7: the run writes no file when any stage fails (fetch of either
document, or parsing of either document) and terminates with that error;
the run succeeds exactly when both documents fetch and both parse
succeed, and then it writes exactly the four output files, in order. -/
theorem C7_all_or_nothing (fc fp : Except SyncError Doc) :
    (∀ e, (mainRun fc fp).2 = Except.error e → writesOf (mainRun fc fp).1 = []) ∧
    ((mainRun fc fp).2 = Except.ok 0 → writesOf (mainRun fc fp).1 = outputFiles) ∧
    ((∃ n, (mainRun fc fp).2 = Except.ok n) ↔
      ∃ dc dp cr pr, fc = Except.ok dc ∧ fp = Except.ok dp ∧
        parse_classic dc = Except.ok cr ∧ parse_prod dp = Except.ok pr) := by
  cases fc with
  | error e => simp [mainRun, writesOf]
  | ok dc =>
    cases fp with
    | error e => simp [mainRun, writesOf]
    | ok dp =>
      cases hc : parse_classic dc with
      | error e => simp [mainRun, hc, writesOf]
      | ok cr =>
        cases hp : parse_prod dp with
        | error e => simp [mainRun, hc, hp, writesOf]
        | ok pr => simp [mainRun, hc, hp, writesOf, outputFiles]

/-- C7 witness: a failing fetch writes nothing; the all-ok equivalence
instantiated at a concrete failing input. -/
theorem C7_all_or_nothing_witness :
    writesOf (mainRun (Except.error (SyncError.fetchFailure "boom")) (Except.ok [])).1 = [] :=
  (C7_all_or_nothing (Except.error (SyncError.fetchFailure "boom")) (Except.ok [])).1
    (SyncError.fetchFailure "boom") (by rfl)
